import Mathlib

/-!
Verification development for the unified-diff hunk extraction and patch
application engine (source module diff.ts of the splice-pr repository).

The TypeScript source is shallowly embedded below.  Raw JavaScript strings
are modelled as Lean strings; the splitting of a string on newline
characters and the joining of lines are modelled by structurally recursive
functions on the underlying character lists, matching the semantics of the
JavaScript split and join operations used by the source.  Line numbers are
natural numbers (the source only ever produces non-negative integers from
the hunk-header regular expression and subsequent increments).  JavaScript
array indexing past the end of an array (which yields undefined) is
modelled by Option-valued lookup; a computation that would push undefined
into its result is modelled as returning none.
-/

namespace Splice

/-- Model of the JavaScript string split on a newline character:
splitting the character list at every newline, keeping empty pieces. -/
def splitLines : List Char → List (List Char)
  | [] => [[]]
  | c :: rest =>
    if c = '\n' then [] :: splitLines rest
    else
      match splitLines rest with
      | [] => [[c]]
      | l :: ls => (c :: l) :: ls

/-- Model of the JavaScript array join with a newline separator. -/
def joinLines : List (List Char) → List Char
  | [] => []
  | [l] => l
  | l :: ls => l ++ '\n' :: joinLines ls

/-- Result of parsing a hunk header of the form
at-at minus oldStart comma oldLines plus newStart comma newLines at-at. -/
structure HunkHeader where
  oldStart : Nat
  oldLines : Nat
  newStart : Nat
  newLines : Nat
deriving DecidableEq

/-- Decimal value of a digit string, as computed by parseInt on a
string of ASCII digits. -/
def parseNatChars (ds : List Char) : Nat :=
  ds.foldl (fun a c => a * 10 + (c.toNat - 48)) 0

/-- Read a maximal non-empty run of digits from the front of the list,
returning its value and the remainder; none if the first character is not
a digit.  This models a greedy digit group of the header regular
expression. -/
def takeDigits? (cs : List Char) : Option (Nat × List Char) :=
  let ds := cs.takeWhile Char.isDigit
  if ds.isEmpty then none
  else some (parseNatChars ds, cs.dropWhile Char.isDigit)

/-- Optional comma-then-digits group of the header regular expression.
When the group does not match, the length defaults to 1 (the source
applies parseInt to the fallback string for 1) and no input is consumed. -/
def optionalCommaNum (cs : List Char) : Nat × List Char :=
  match cs with
  | ',' :: rest =>
    (match takeDigits? rest with
     | some (v, r) => (v, r)
     | none => (1, cs))
  | _ => (1, cs)

/-- Attempt to match the hunk-header pattern starting at the head of the
character list. -/
def matchHeaderAt (cs : List Char) : Option HunkHeader :=
  match cs with
  | '@' :: '@' :: ' ' :: '-' :: r1 =>
    (match takeDigits? r1 with
     | none => none
     | some (oS, r2) =>
       match optionalCommaNum r2 with
       | (oL, r3) =>
         match r3 with
         | ' ' :: '+' :: r4 =>
           (match takeDigits? r4 with
            | none => none
            | some (nS, r5) =>
              match optionalCommaNum r5 with
              | (nL, r6) =>
                match r6 with
                | ' ' :: '@' :: '@' :: _ => some ⟨oS, oL, nS, nL⟩
                | _ => none)
         | _ => none)
  | _ => none

/-- Scan the suffixes of the line left to right for the first position at
which the header pattern matches; this models the unanchored regular
expression search of the source. -/
def findHeader : List Char → Option HunkHeader
  | [] => none
  | c :: rest =>
    match matchHeaderAt (c :: rest) with
    | some h => some h
    | none => findHeader rest

/-- Parse a unified diff hunk header line (function parseHunkHeader of
diff.ts). -/
def parseHunkHeader (line : List Char) : Option HunkHeader :=
  findHeader line

/-- Classification of a diff body line. -/
inductive DiffLineType where
  | context
  | addition
  | deletion
deriving DecidableEq

/-- A line in the diff with its metadata (interface DiffLine of diff.ts). -/
structure DiffLine where
  content : List Char
  type : DiffLineType
  oldLineNum : Option Nat
  newLineNum : Option Nat
deriving DecidableEq

/-- A hunk with recomputed header fields (interface DiffHunk of types.ts). -/
structure DiffHunk where
  oldStart : Nat
  oldLines : Nat
  newStart : Nat
  newLines : Nat
  content : String
deriving DecidableEq

/-- Test for a line starting with the plus marker. -/
def isAdditionLine : List Char → Bool
  | [] => false
  | c :: _ => c = '+'

/-- Test for a line starting with the minus marker. -/
def isDeletionLine : List Char → Bool
  | [] => false
  | c :: _ => c = '-'

/-- Test for a context line: empty or starting with a space. -/
def isContextLine : List Char → Bool
  | [] => true
  | c :: _ => c = ' '

/-- Parsing loop of extractHunkForLineRange (diff.ts lines 41 to 84):
walk the patch lines, reset the running counters at each hunk header,
skip everything before the first header, and classify the remaining lines
by their leading marker, advancing the counters per coordinate. -/
def buildDiffLines : List (List Char) → Nat → Nat → Bool → List DiffLine
  | [], _, _, _ => []
  | l :: ls, o, n, inHunk =>
    match parseHunkHeader l with
    | some h => buildDiffLines ls h.oldStart h.newStart true
    | none =>
      if inHunk then
        if isAdditionLine l then
          ⟨l, .addition, none, some n⟩ :: buildDiffLines ls o (n + 1) true
        else if isDeletionLine l then
          ⟨l, .deletion, some o, none⟩ :: buildDiffLines ls (o + 1) n true
        else
          ⟨l, .context, some o, some n⟩ :: buildDiffLines ls (o + 1) (n + 1) true
      else
        buildDiffLines ls o n inHunk

/-- The flat sequence of classified diff lines of a file patch. -/
def allDiffLines (filePatch : String) : List DiffLine :=
  buildDiffLines (splitLines filePatch.data) 0 0 false

/-- Membership of a diff line in the selected new-file range, as tested by
the primary selection pass (newLineNum non-null and within bounds). -/
def inRange (d : DiffLine) (startLine endLine : Nat) : Bool :=
  match d.newLineNum with
  | some n => startLine ≤ n && n ≤ endLine
  | none => false

/-- First selection pass (diff.ts lines 96 to 109), as the list of indices
into the flat line sequence whose new coordinate lies in the range.
Indices model the object identities of the JavaScript DiffLine values. -/
def selectionPass1 (dls : List DiffLine) (startLine endLine : Nat) : List Nat :=
  (List.range dls.length).filter fun i =>
    match dls[i]? with
    | some d => inRange d startLine endLine
    | none => false

/-- The diff lines selected by the first pass, in order. -/
def pass1Lines (dls : List DiffLine) (startLine endLine : Nat) : List DiffLine :=
  (selectionPass1 dls startLine endLine).filterMap fun i => dls[i]?

/-- Running minimum of the old coordinates of the first-pass lines;
none models the initial value Infinity of the source. -/
def minOldOf (lines : List DiffLine) : Option Nat :=
  lines.foldl
    (fun acc d =>
      match d.oldLineNum with
      | some o =>
        match acc with
        | none => some o
        | some m => some (min m o)
      | none => acc)
    none

/-- Running maximum of the old coordinates of the first-pass lines,
starting from 0 as in the source. -/
def maxOldOf (lines : List DiffLine) : Nat :=
  lines.foldl
    (fun acc d =>
      match d.oldLineNum with
      | some o => max acc o
      | none => acc)
    0

/-- Push an index onto the selection unless already present; models the
includes-guarded push of the source. -/
def addIfAbsent (sel : List Nat) (i : Nat) : List Nat :=
  if i ∈ sel then sel else sel ++ [i]

/-- Adjacency check of the second pass: include the deletion at index i
when the immediately following diff line exists, is already selected, and
is an addition. -/
def adjCheck (dls : List DiffLine) (sel : List Nat) (i : Nat) : List Nat :=
  match dls[i + 1]? with
  | some nxt =>
    if (i + 1) ∈ sel ∧ nxt.type = .addition then addIfAbsent sel i else sel
  | none => sel

/-- One iteration of the second selection pass (diff.ts lines 114 to 134)
at index i: deletions inside the old-coordinate span from the minimum up
to one past the maximum are included, otherwise the adjacency check runs. -/
def secondPassStep (dls : List DiffLine) (minOld : Option Nat) (maxOld : Nat)
    (sel : List Nat) (i : Nat) : List Nat :=
  match dls[i]? with
  | some d =>
    if d.type = .deletion then
      match d.oldLineNum with
      | some o =>
        (match minOld with
         | some mo =>
           if mo ≤ o ∧ o ≤ maxOld + 1 then addIfAbsent sel i
           else adjCheck dls sel i
         | none => adjCheck dls sel i)
      | none => sel
    else sel
  | none => sel

/-- The selection after both passes. -/
def selectionFinal (dls : List DiffLine) (startLine endLine : Nat) : List Nat :=
  (List.range dls.length).foldl
    (secondPassStep dls
      (minOldOf (pass1Lines dls startLine endLine))
      (maxOldOf (pass1Lines dls startLine endLine)))
    (selectionPass1 dls startLine endLine)

/-- The selection sorted by position in the diff (diff.ts lines 141 to 145);
since the selected indices are pairwise distinct, the comparison sort of
the source produces exactly the indices in ascending order. -/
def selectionSorted (dls : List DiffLine) (startLine endLine : Nat) : List Nat :=
  (List.range dls.length).filter fun i =>
    decide (i ∈ selectionFinal dls startLine endLine)

/-- The selected diff lines in diff order; this list becomes the body of
the synthesized hunk. -/
def selectionLines (dls : List DiffLine) (startLine endLine : Nat) : List DiffLine :=
  (selectionSorted dls startLine endLine).filterMap fun i => dls[i]?

/-- Count of lines contributing to the old side (deletions and context). -/
def oldCountOf (lines : List DiffLine) : Nat :=
  lines.countP fun d => decide (d.type = .deletion) || decide (d.type = .context)

/-- Count of lines contributing to the new side (additions and context). -/
def newCountOf (lines : List DiffLine) : Nat :=
  lines.countP fun d => decide (d.type = .addition) || decide (d.type = .context)

/-- Model of the JavaScript or-with-1 fallback applied to the optionally
found first coordinate: absent values and the falsy value 0 both become 1. -/
def jsOrOne : Option Nat → Nat
  | none => 1
  | some 0 => 1
  | some (n + 1) => n + 1

/-- Character rendering of a natural number, as produced by template
interpolation of a non-negative integer. -/
def natChars (n : Nat) : List Char :=
  (Nat.repr n).data

/-- The synthesized hunk header line. -/
def headerChars (oS oL nS nL : Nat) : List Char :=
  ("@@ -").data ++ natChars oS ++ [','] ++ natChars oL
    ++ [' ', '+'] ++ natChars nS ++ [','] ++ natChars nL ++ (" @@").data

/-- Extract only the selected lines from a file patch
(function extractHunkForLineRange of diff.ts). -/
def extractHunkForLineRange (filePatch : String) (startLine endLine : Nat) :
    Option DiffHunk :=
  let dls := allDiffLines filePatch
  if (selectionFinal dls startLine endLine).isEmpty then none
  else
    let lines := selectionLines dls startLine endLine
    let oC := oldCountOf lines
    let nC := newCountOf lines
    let fO := jsOrOne ((lines.filterMap fun d => d.oldLineNum).head?)
    let fN := jsOrOne ((lines.filterMap fun d => d.newLineNum).head?)
    some
      { oldStart := fO
        oldLines := oC
        newStart := fN
        newLines := nC
        content :=
          String.mk (joinLines (headerChars fO oC fN nC :: lines.map fun d => d.content)) }

/-- The body of the hunk returned by extractHunkForLineRange, as the list
of selected diff lines in diff order. -/
def selectedDiffLines (filePatch : String) (startLine endLine : Nat) : List DiffLine :=
  selectionLines (allDiffLines filePatch) startLine endLine

/-- Base content split into lines, with the empty-content special case for
new files (diff.ts line 236). -/
def baseLinesOf (baseContent : String) : List (List Char) :=
  if baseContent = "" then [] else splitLines baseContent.data

/-- Copy count lines of the list starting at index i, failing if any index
is out of bounds; models the index-based copying loops of applyHunk, where
an out-of-bounds read would push undefined into the result. -/
def copyFrom (l : List (List Char)) : Nat → Nat → Option (List (List Char))
  | _, 0 => some []
  | i, count + 1 =>
    match l[i]? with
    | some x => (copyFrom l (i + 1) count).map (x :: ·)
    | none => none

/-- Processing of one hunk body line by applyHunk: additions and context
lines are emitted with their marker stripped, deletions are skipped, and
any other line is skipped as well since the source has no branch for it.
The empty line is treated as a context line whose stripped text is empty. -/
def applyBodyLine (l : List Char) : Option (List Char) :=
  match l with
  | [] => some []
  | c :: r =>
    if c = '+' then some r
    else if c = '-' then none
    else if c = ' ' then some r
    else none

/-- The body-walking loop of applyHunk. -/
def applyBody : List (List Char) → List (List Char)
  | [] => []
  | l :: ls =>
    match applyBodyLine l with
    | some x => x :: applyBody ls
    | none => applyBody ls

/-- Apply a diff hunk to base content (function applyHunk of diff.ts).
The result is none exactly when a loop of the source would read past an
array boundary: the leading copy when oldStart minus 1 exceeds the number
of base lines, and the trailing copy when both oldStart and oldLines are
zero, which makes the trailing start index negative. -/
def applyHunk (baseContent : String) (hunk : DiffHunk) : Option String :=
  let baseLines := baseLinesOf baseContent
  let patchLines := (splitLines hunk.content.data).drop 1
  (copyFrom baseLines 0 (hunk.oldStart - 1)).bind fun front =>
    if hunk.oldStart = 0 ∧ hunk.oldLines = 0 then none
    else
      let afterStart := hunk.oldStart - 1 + hunk.oldLines
      (copyFrom baseLines afterStart (baseLines.length - afterStart)).map fun back =>
        String.mk (joinLines (front ++ applyBody patchLines ++ back))

/-- Sequential application of hunks to base content, as performed by the
per-file loop of commitChanges (github.ts lines 149 to 153). -/
def applyHunksSequentially (baseContent : String) (hunks : List DiffHunk) :
    Option String :=
  hunks.foldlM (fun acc h => applyHunk acc h) baseContent

/-- Validity predicate for a single-file diff: along the same traversal as
the parsing loop, every hunk header restarts the coordinates at values no
smaller than the running counters, so headers appear in ascending
position. -/
def validDiff : List (List Char) → Nat → Nat → Bool → Bool
  | [], _, _, _ => true
  | l :: ls, o, n, inHunk =>
    match parseHunkHeader l with
    | some h =>
      decide (o ≤ h.oldStart) && decide (n ≤ h.newStart)
        && validDiff ls h.oldStart h.newStart true
    | none =>
      if inHunk then
        if isAdditionLine l then validDiff ls o (n + 1) true
        else if isDeletionLine l then validDiff ls (o + 1) n true
        else validDiff ls (o + 1) (n + 1) true
      else validDiff ls o n inHunk

/-- The old coordinates present in a diff line sequence, in order. -/
def oldNums (l : List DiffLine) : List Nat :=
  l.filterMap fun d => d.oldLineNum

/-- The new coordinates present in a diff line sequence, in order. -/
def newNums (l : List DiffLine) : List Nat :=
  l.filterMap fun d => d.newLineNum

/-- Declarative description of applyHunk following the specification text:
emit the base lines before oldStart, then the marker-stripped text of each
context and addition body line with deletions skipped, then the base lines
from oldStart plus oldLines onwards. -/
def applyHunkDescribed (baseContent : String) (hunk : DiffHunk) : String :=
  let base := baseLinesOf baseContent
  let body := (splitLines hunk.content.data).drop 1
  let kept := (body.filter fun l => isContextLine l || isAdditionLine l).map fun l => l.drop 1
  String.mk (joinLines
    (base.take (hunk.oldStart - 1) ++ kept ++ base.drop (hunk.oldStart - 1 + hunk.oldLines)))

/-- Sample patch of the extraction test suite: a seven-line hunk replacing
one line by three. -/
def samplePatch : String :=
  "@@ -10,7 +10,9 @@\n function foo() \x7b\n   const x = 1;\n-  const y = 2;\n+  const y = 3;\n+  const z = 4;\n+  const w = 5;\n   return x + y;\n \x7d"

/-- Patch of the regression test for the spliced insertion bug: a context
line, a deletion of the old second line, and three additions. -/
def buggyPatch : String :=
  "@@ -1,2 +1,4 @@\n export const foo = 1;\n-export const bar = 2;\n+export const bar = 2;\n+export const baz = 3;\n+export const qux = 4;"

/-- New-file patch with five pure addition lines. -/
def newFilePatch : String :=
  "@@ -0,0 +1,5 @@\n+export const foo = 1;\n+export const bar = 2;\n+export const baz = 3;\n+export const qux = 4;\n+export const quux = 5;"

/-- Patch with two hunks whose headers appear in ascending position. -/
def multiHunkPatch : String :=
  "@@ -5,3 +5,4 @@\n line 5\n line 6\n+new line 7\n line 7\n@@ -20,3 +21,4 @@\n line 20\n line 21\n+new line 22\n line 22"

/-- Patch in which a deletion line immediately precedes a context line:
used to separate the adjacency rule for additions from context lines. -/
def deletionBeforeContextPatch : String :=
  "@@ -1,2 +1,1 @@\n-old line\n kept line"

/-- Patch whose single hunk body consists solely of deletion lines. -/
def pureDeletionPatch : String :=
  "@@ -1,2 +1,0 @@\n-export const foo = 1;\n-export const bar = 2;"

/-! Lemmas about the second selection pass. -/

theorem addIfAbsent_subset (sel : List Nat) (i : Nat) : sel ⊆ addIfAbsent sel i := by
  unfold addIfAbsent
  split
  · exact fun _ h => h
  · exact List.subset_append_left _ _

theorem mem_addIfAbsent_self (sel : List Nat) (i : Nat) : i ∈ addIfAbsent sel i := by
  unfold addIfAbsent
  split
  · assumption
  · simp

theorem mem_addIfAbsent_inv {sel : List Nat} {i x : Nat}
    (h : x ∈ addIfAbsent sel i) : x ∈ sel ∨ x = i := by
  unfold addIfAbsent at h
  split at h
  · exact Or.inl h
  · rcases List.mem_append.mp h with h' | h'
    · exact Or.inl h'
    · simp at h'
      exact Or.inr h'

theorem adjCheck_subset (dls : List DiffLine) (sel : List Nat) (i : Nat) :
    sel ⊆ adjCheck dls sel i := by
  unfold adjCheck
  split
  · split
    · exact addIfAbsent_subset _ _
    · exact fun _ h => h
  · exact fun _ h => h

theorem mem_adjCheck_inv {dls : List DiffLine} {sel : List Nat} {i x : Nat}
    (h : x ∈ adjCheck dls sel i) : x ∈ sel ∨ x = i := by
  unfold adjCheck at h
  split at h
  · split at h
    · exact mem_addIfAbsent_inv h
    · exact Or.inl h
  · exact Or.inl h

theorem mem_adjCheck_self {dls : List DiffLine} {sel : List Nat} {i : Nat} {a : DiffLine}
    (hnext : dls[i + 1]? = some a) (htype : a.type = .addition) (hmem : (i + 1) ∈ sel) :
    i ∈ adjCheck dls sel i := by
  simp only [adjCheck, hnext]
  rw [if_pos ⟨hmem, htype⟩]
  exact mem_addIfAbsent_self _ _

theorem adjCheck_nil (dls : List DiffLine) (i : Nat) : adjCheck dls [] i = [] := by
  unfold adjCheck
  split
  · rw [if_neg]
    rintro ⟨h, -⟩
    simp at h
  · rfl

theorem secondPassStep_cases (dls : List DiffLine) (mo : Option Nat) (mx : Nat)
    (sel : List Nat) (i : Nat) :
    secondPassStep dls mo mx sel i = sel ∨
      ((∃ d, dls[i]? = some d ∧ d.type = .deletion) ∧
        (secondPassStep dls mo mx sel i = addIfAbsent sel i ∨
         secondPassStep dls mo mx sel i = adjCheck dls sel i)) := by
  unfold secondPassStep
  split
  · rename_i d hget
    split
    · rename_i htype
      split
      · rename_i o ho
        split
        · split
          · exact Or.inr ⟨⟨d, hget, htype⟩, Or.inl rfl⟩
          · exact Or.inr ⟨⟨d, hget, htype⟩, Or.inr rfl⟩
        · exact Or.inr ⟨⟨d, hget, htype⟩, Or.inr rfl⟩
      · exact Or.inl rfl
    · exact Or.inl rfl
  · exact Or.inl rfl

theorem secondPassStep_subset (dls : List DiffLine) (mo : Option Nat) (mx : Nat)
    (sel : List Nat) (i : Nat) : sel ⊆ secondPassStep dls mo mx sel i := by
  rcases secondPassStep_cases dls mo mx sel i with h | ⟨-, h | h⟩ <;> rw [h]
  · exact fun _ h => h
  · exact addIfAbsent_subset _ _
  · exact adjCheck_subset _ _ _

theorem secondPassStep_mem_inv {dls : List DiffLine} {mo : Option Nat} {mx : Nat}
    {sel : List Nat} {i x : Nat} (h : x ∈ secondPassStep dls mo mx sel i) :
    x ∈ sel ∨ (x = i ∧ ∃ d, dls[i]? = some d ∧ d.type = .deletion) := by
  rcases secondPassStep_cases dls mo mx sel i with hc | ⟨hd, hc | hc⟩
  · rw [hc] at h
    exact Or.inl h
  · rw [hc] at h
    rcases mem_addIfAbsent_inv h with h' | h'
    · exact Or.inl h'
    · exact Or.inr ⟨h', hd⟩
  · rw [hc] at h
    rcases mem_adjCheck_inv h with h' | h'
    · exact Or.inl h'
    · exact Or.inr ⟨h', hd⟩

theorem secondPassStep_adds {dls : List DiffLine} {mo : Option Nat} {mx : Nat}
    {sel : List Nat} {i : Nat} {d : DiffLine} {o : Nat}
    (hget : dls[i]? = some d) (hdel : d.type = .deletion) (ho : d.oldLineNum = some o)
    (hc : (∃ m, mo = some m ∧ m ≤ o ∧ o ≤ mx + 1) ∨
          (∃ a, dls[i + 1]? = some a ∧ a.type = .addition ∧ (i + 1) ∈ sel)) :
    i ∈ secondPassStep dls mo mx sel i := by
  simp only [secondPassStep, hget, ho]
  rw [if_pos hdel]
  rcases hc with ⟨m, rfl, h1, h2⟩ | ⟨a, hnext, htype, hmem⟩
  · show i ∈ if m ≤ o ∧ o ≤ mx + 1 then addIfAbsent sel i else adjCheck dls sel i
    rw [if_pos ⟨h1, h2⟩]
    exact mem_addIfAbsent_self _ _
  · cases mo with
    | none => exact mem_adjCheck_self hnext htype hmem
    | some m =>
      show i ∈ if m ≤ o ∧ o ≤ mx + 1 then addIfAbsent sel i else adjCheck dls sel i
      by_cases hspan : m ≤ o ∧ o ≤ mx + 1
      · rw [if_pos hspan]
        exact mem_addIfAbsent_self _ _
      · rw [if_neg hspan]
        exact mem_adjCheck_self hnext htype hmem

theorem secondPassStep_nil (dls : List DiffLine) (mx : Nat) (i : Nat) :
    secondPassStep dls none mx [] i = [] := by
  unfold secondPassStep
  split
  · split
    · split
      · exact adjCheck_nil _ _
      · rfl
    · rfl
  · rfl

theorem foldl_step_subset (dls : List DiffLine) (mo : Option Nat) (mx : Nat) :
    ∀ (l : List Nat) (sel : List Nat), sel ⊆ l.foldl (secondPassStep dls mo mx) sel
  | [], _ => fun _ h => h
  | a :: l, sel => fun _x hx =>
    foldl_step_subset dls mo mx l _ (secondPassStep_subset dls mo mx sel a hx)

theorem foldl_step_mem_inv (dls : List DiffLine) (mo : Option Nat) (mx : Nat) :
    ∀ (l : List Nat) (sel : List Nat) (x : Nat),
      x ∈ l.foldl (secondPassStep dls mo mx) sel →
      x ∈ sel ∨ ∃ d, dls[x]? = some d ∧ d.type = .deletion
  | [], _, _x => fun h => Or.inl h
  | a :: l, sel, x => by
    intro h
    rcases foldl_step_mem_inv dls mo mx l _ x h with h' | h'
    · rcases secondPassStep_mem_inv h' with h'' | ⟨rfl, hd⟩
      · exact Or.inl h''
      · exact Or.inr hd
    · exact Or.inr h'

theorem foldl_step_nil (dls : List DiffLine) (mx : Nat) :
    ∀ l : List Nat, l.foldl (secondPassStep dls none mx) [] = []
  | [] => rfl
  | a :: l => by
    rw [List.foldl_cons, secondPassStep_nil]
    exact foldl_step_nil dls mx l

theorem foldl_step_adds (dls : List DiffLine) (mo : Option Nat) (mx : Nat)
    (i : Nat) (d : DiffLine) (o : Nat)
    (hget : dls[i]? = some d) (hdel : d.type = .deletion) (ho : d.oldLineNum = some o) :
    ∀ (l : List Nat) (sel : List Nat), i ∈ l →
      ((∃ m, mo = some m ∧ m ≤ o ∧ o ≤ mx + 1) ∨
       (∃ a, dls[i + 1]? = some a ∧ a.type = .addition ∧ (i + 1) ∈ sel)) →
      i ∈ l.foldl (secondPassStep dls mo mx) sel
  | [], _ => fun h _ => absurd h (List.not_mem_nil i)
  | a :: l, sel => by
    intro hil hc
    rcases List.mem_cons.mp hil with heq | hmem
    · subst heq
      have h1 : i ∈ secondPassStep dls mo mx sel i :=
        secondPassStep_adds hget hdel ho hc
      exact foldl_step_subset dls mo mx l _ h1
    · apply foldl_step_adds dls mo mx i d o hget hdel ho l
        (secondPassStep dls mo mx sel a) hmem
      rcases hc with h | ⟨a', hn, ht, hm⟩
      · exact Or.inl h
      · exact Or.inr ⟨a', hn, ht, secondPassStep_subset dls mo mx sel a hm⟩

/-! Lemmas about the first selection pass and emptiness of the result. -/

theorem inRange_iff {d : DiffLine} {s e : Nat} :
    inRange d s e = true ↔ ∃ n, d.newLineNum = some n ∧ s ≤ n ∧ n ≤ e := by
  unfold inRange
  cases h : d.newLineNum with
  | none => simp
  | some n => simp [Bool.and_eq_true, decide_eq_true_iff]

theorem mem_selectionPass1 {dls : List DiffLine} {s e i : Nat} :
    i ∈ selectionPass1 dls s e ↔ ∃ d, dls[i]? = some d ∧ inRange d s e = true := by
  unfold selectionPass1
  rw [List.mem_filter, List.mem_range]
  constructor
  · rintro ⟨hlt, hp⟩
    rcases h : dls[i]? with _ | d
    · rw [h] at hp
      simp at hp
    · refine ⟨d, rfl, ?_⟩
      rw [h] at hp
      exact hp
  · rintro ⟨d, hget, hr⟩
    rcases List.getElem?_eq_some_iff.mp hget with ⟨hlt, -⟩
    refine ⟨hlt, ?_⟩
    rw [hget]
    exact hr

theorem pass1Lines_nil {dls : List DiffLine} {s e : Nat}
    (h : selectionPass1 dls s e = []) : pass1Lines dls s e = [] := by
  unfold pass1Lines
  rw [h]
  rfl

theorem selectionFinal_nil_iff (dls : List DiffLine) (s e : Nat) :
    selectionFinal dls s e = [] ↔ selectionPass1 dls s e = [] := by
  constructor
  · intro h
    have hsub := foldl_step_subset dls (minOldOf (pass1Lines dls s e))
      (maxOldOf (pass1Lines dls s e)) (List.range dls.length) (selectionPass1 dls s e)
    unfold selectionFinal at h
    rw [h] at hsub
    exact List.subset_nil.mp hsub
  · intro h
    unfold selectionFinal
    rw [h, pass1Lines_nil h]
    exact foldl_step_nil dls (maxOldOf []) (List.range dls.length)

theorem extract_none_iff_final_nil (patch : String) (s e : Nat) :
    extractHunkForLineRange patch s e = none ↔
      selectionFinal (allDiffLines patch) s e = [] := by
  simp only [extractHunkForLineRange]
  split_ifs with hE
  · simp [List.isEmpty_iff.mp hE]
  · constructor
    · intro h
      cases h
    · intro h
      exact absurd (List.isEmpty_iff.mpr h) hE

theorem extract_none_iff (patch : String) (s e : Nat) :
    extractHunkForLineRange patch s e = none ↔
      ∀ d ∈ allDiffLines patch, ∀ n, d.newLineNum = some n → ¬(s ≤ n ∧ n ≤ e) := by
  rw [extract_none_iff_final_nil, selectionFinal_nil_iff]
  unfold selectionPass1
  rw [List.filter_eq_nil_iff]
  constructor
  · intro h d hd n hn hb
    rcases List.mem_iff_getElem?.mp hd with ⟨i, hget⟩
    rcases List.getElem?_eq_some_iff.mp hget with ⟨hlt, -⟩
    apply h i (List.mem_range.mpr hlt)
    rw [hget]
    exact inRange_iff.mpr ⟨n, hn, hb⟩
  · intro h i _ hp
    rcases hg : (allDiffLines patch)[i]? with _ | d
    · rw [hg] at hp
      simp at hp
    · rw [hg] at hp
      have hd : d ∈ allDiffLines patch := List.getElem?_mem hg
      rcases inRange_iff.mp hp with ⟨n, hn, hb⟩
      exact h d hd n hn hb

/-! Shape of the lines produced by the parsing loop. -/

theorem build_deletion_shape :
    ∀ (ls : List (List Char)) (o n : Nat) (b : Bool) (d : DiffLine),
      d ∈ buildDiffLines ls o n b → d.type = .deletion →
      (∃ x, d.oldLineNum = some x) ∧ d.newLineNum = none
  | [], _, _, _, _ => fun h _ => absurd h (List.not_mem_nil _)
  | l :: ls, o, n, b, d => by
    intro hmem htype
    simp only [buildDiffLines] at hmem
    split at hmem
    · exact build_deletion_shape ls _ _ true d hmem htype
    · split at hmem
      · split at hmem
        · rcases List.mem_cons.mp hmem with heq | h'
          · subst heq
            simp at htype
          · exact build_deletion_shape ls _ _ true d h' htype
        · split at hmem
          · rcases List.mem_cons.mp hmem with heq | h'
            · subst heq
              exact ⟨⟨o, rfl⟩, rfl⟩
            · exact build_deletion_shape ls _ _ true d h' htype
          · rcases List.mem_cons.mp hmem with heq | h'
            · subst heq
              simp at htype
            · exact build_deletion_shape ls _ _ true d h' htype
      · exact build_deletion_shape ls _ _ b d hmem htype

/-! Membership in the synthesized body. -/

theorem mem_selectionLines_of_final {dls : List DiffLine} {s e i : Nat} {d : DiffLine}
    (hget : dls[i]? = some d) (hfin : i ∈ selectionFinal dls s e) :
    d ∈ selectionLines dls s e := by
  unfold selectionLines
  apply List.mem_filterMap.mpr
  refine ⟨i, ?_, hget⟩
  unfold selectionSorted
  rw [List.mem_filter]
  rcases List.getElem?_eq_some_iff.mp hget with ⟨hlt, -⟩
  exact ⟨List.mem_range.mpr hlt, decide_eq_true hfin⟩

theorem mem_selectionLines_inv {dls : List DiffLine} {s e : Nat} {d : DiffLine}
    (h : d ∈ selectionLines dls s e) :
    ∃ i, i ∈ selectionFinal dls s e ∧ dls[i]? = some d := by
  unfold selectionLines at h
  rcases List.mem_filterMap.mp h with ⟨i, hi, hget⟩
  unfold selectionSorted at hi
  rw [List.mem_filter] at hi
  exact ⟨i, of_decide_eq_true hi.2, hget⟩

theorem extract_ne_none_of_final {patch : String} {s e : Nat}
    (h : selectionFinal (allDiffLines patch) s e ≠ []) :
    extractHunkForLineRange patch s e ≠ none := fun hn =>
  h ((extract_none_iff_final_nil patch s e).mp hn)

/-- C6: extractHunkForLineRange returns none, and never fails in any other
way (it is a total function of the embedding), exactly when no parsed diff
line carries a new-file coordinate inside the inclusive range.  In
particular the result is none for every range when no line of the patch
parses as a hunk header (the parsed sequence is then empty and the
condition on the right holds vacuously), and the result is some hunk
whenever an addition or context line falls in the range, since such lines
carry a new coordinate. -/
theorem claim_C6_none_iff_no_new_coord_in_range (patch : String) (s e : Nat) :
    extractHunkForLineRange patch s e = none ↔
      ∀ d ∈ allDiffLines patch, ∀ n, d.newLineNum = some n → ¬(s ≤ n ∧ n ≤ e) :=
  extract_none_iff patch s e

/-- Witness for C6 at a concrete input: the sample patch has no new
coordinate in the range from 100 to 105, so the extraction returns none. -/
theorem claim_C6_witness :
    extractHunkForLineRange samplePatch 100 105 = none :=
  (claim_C6_none_iff_no_new_coord_in_range samplePatch 100 105).mpr (by decide)

/-- C7: every context or addition line in the body of the hunk returned by
extractHunkForLineRange (the list selectedDiffLines, from which the content
field of the returned hunk is built) has a new-file coordinate within the
requested range; only deletion lines may lie outside it. -/
theorem claim_C7_selected_non_deletions_in_range (patch : String) (s e : Nat)
    (d : DiffLine) (hmem : d ∈ selectedDiffLines patch s e)
    (hnd : d.type ≠ .deletion) :
    ∃ n, d.newLineNum = some n ∧ s ≤ n ∧ n ≤ e := by
  rcases mem_selectionLines_inv hmem with ⟨i, hfin, hget⟩
  have hinv := foldl_step_mem_inv (allDiffLines patch)
    (minOldOf (pass1Lines (allDiffLines patch) s e))
    (maxOldOf (pass1Lines (allDiffLines patch) s e))
    (List.range (allDiffLines patch).length)
    (selectionPass1 (allDiffLines patch) s e) i hfin
  rcases hinv with h1 | ⟨d', hg', ht'⟩
  · rcases mem_selectionPass1.mp h1 with ⟨d'', hget'', hr⟩
    rw [hget] at hget''
    obtain rfl := Option.some_inj.mp hget''
    exact inRange_iff.mp hr
  · rw [hget] at hg'
    obtain rfl := Option.some_inj.mp hg'
    exact absurd ht' hnd

/-- Witness for C7 at a concrete input: the first selected addition of the
sample patch extraction for the range 12 to 14 carries new coordinate 12. -/
theorem claim_C7_witness :
    ∃ n, (⟨("+  const y = 3;").data, .addition, none,
        some 12⟩ : DiffLine).newLineNum = some n ∧ 12 ≤ n ∧ n ≤ 14 :=
  claim_C7_selected_non_deletions_in_range samplePatch 12 14
    ⟨("+  const y = 3;").data, .addition, none, some 12⟩ (by decide) (by decide)

/-- C10: the primary selection pass consults only new-file coordinates, so
a patch whose parsed lines are all deletions (which carry no new
coordinate) yields none for every requested range. -/
theorem claim_C10_pure_deletion_returns_none (patch : String) (s e : Nat)
    (h : ∀ d ∈ allDiffLines patch, d.type = .deletion) :
    extractHunkForLineRange patch s e = none := by
  apply (extract_none_iff patch s e).mpr
  intro d hd n hn _
  have hshape := (build_deletion_shape (splitLines patch.data) 0 0 false d hd (h d hd)).2
  rw [hshape] at hn
  exact Option.noConfusion hn

/-- Witness for C10 at a concrete input: a two-line pure-deletion patch
yields none for the range 1 to 9. -/
theorem claim_C10_witness :
    (∀ d ∈ allDiffLines pureDeletionPatch, d.type = .deletion) ∧
      extractHunkForLineRange pureDeletionPatch 1 9 = none :=
  ⟨by decide, claim_C10_pure_deletion_returns_none pureDeletionPatch 1 9 (by decide)⟩

/-- C2 (amended): every deletion line that immediately precedes an addition
line already selected by the primary pass, and every deletion line whose
old coordinate lies inside the contiguous old-coordinate span bounded by
the already-selected lines, is included in the body of the returned hunk
(the deletion immediately preceding a selected context line, by contrast,
need not be included; see the counterexample theorem).  The second
conjunct is the scenario instance: extracting new range 12 to 14 from the
sample hunk yields a body consisting of the deletion of the old line
together with the three selected additions, and nothing else. -/
theorem claim_C2_deletion_inclusion_amended :
    (∀ (patch : String) (s e i : Nat) (d : DiffLine),
        (allDiffLines patch)[i]? = some d → d.type = .deletion →
        ((∃ a, (allDiffLines patch)[i + 1]? = some a ∧ a.type = .addition ∧
            (i + 1) ∈ selectionPass1 (allDiffLines patch) s e) ∨
         (∃ o m, d.oldLineNum = some o ∧
            minOldOf (pass1Lines (allDiffLines patch) s e) = some m ∧
            m ≤ o ∧ o ≤ maxOldOf (pass1Lines (allDiffLines patch) s e))) →
        d ∈ selectedDiffLines patch s e ∧
          extractHunkForLineRange patch s e ≠ none) ∧
      (selectedDiffLines samplePatch 12 14).map (fun d => d.content) =
        [("-  const y = 2;").data, ("+  const y = 3;").data,
         ("+  const z = 4;").data, ("+  const w = 5;").data] := by
  constructor
  · intro patch s e i d hget hdel hcase
    obtain ⟨⟨o, ho⟩, -⟩ := build_deletion_shape (splitLines patch.data) 0 0 false d
      (List.getElem?_mem hget) hdel
    have hfin : i ∈ selectionFinal (allDiffLines patch) s e := by
      unfold selectionFinal
      apply foldl_step_adds (allDiffLines patch) _ _ i d o hget hdel ho
      · rcases List.getElem?_eq_some_iff.mp hget with ⟨hlt, -⟩
        exact List.mem_range.mpr hlt
      · rcases hcase with ⟨a, hn, ht, hm⟩ | ⟨o', m, ho', hmo, h1, h2⟩
        · exact Or.inr ⟨a, hn, ht, hm⟩
        · rw [ho] at ho'
          obtain rfl := Option.some_inj.mp ho'
          exact Or.inl ⟨m, hmo, h1, Nat.le_succ_of_le h2⟩
    exact ⟨mem_selectionLines_of_final hget hfin,
      extract_ne_none_of_final (List.ne_nil_of_mem hfin)⟩
  · decide

/-- Counterexample to C2 as stated: in the patch whose deletion line
immediately precedes a selected context line, the deletion at index 0 is
not included in the returned body even though index 1 is selected by the
primary pass, because the adjacency rule of the source additionally
requires the following selected line to be an addition. -/
theorem claim_C2_counterexample :
    (allDiffLines deletionBeforeContextPatch)[0]? =
        some ⟨("-old line").data, .deletion, some 1, none⟩ ∧
      (0 + 1) ∈ selectionPass1 (allDiffLines deletionBeforeContextPatch) 1 1 ∧
      (⟨("-old line").data, .deletion, some 1, none⟩ : DiffLine) ∉
        selectedDiffLines deletionBeforeContextPatch 1 1 ∧
      extractHunkForLineRange deletionBeforeContextPatch 1 1 ≠ none := by
  decide

/-- Witness for the amended C2 at the scenario input: the deletion of the
sample patch at index 2 immediately precedes the selected addition at
index 3, hence lands in the returned body. -/
theorem claim_C2_witness :
    (⟨("-  const y = 2;").data, .deletion, some 12, none⟩ : DiffLine) ∈
        selectedDiffLines samplePatch 12 14 ∧
      extractHunkForLineRange samplePatch 12 14 ≠ none :=
  claim_C2_deletion_inclusion_amended.1 samplePatch 12 14 2
    ⟨("-  const y = 2;").data, .deletion, some 12, none⟩ (by decide) rfl
    (Or.inl ⟨⟨("+  const y = 3;").data, .addition, none, some 12⟩,
      by decide, rfl, by decide⟩)

/-! Coordinate monotonicity of the parsed sequence. -/

theorem build_mono :
    ∀ (ls : List (List Char)) (o n : Nat) (b : Bool),
      validDiff ls o n b = true →
      (∀ x ∈ oldNums (buildDiffLines ls o n b), o ≤ x) ∧
        (oldNums (buildDiffLines ls o n b)).Pairwise (· ≤ ·) ∧
        (∀ x ∈ newNums (buildDiffLines ls o n b), n ≤ x) ∧
        (newNums (buildDiffLines ls o n b)).Pairwise (· ≤ ·)
  | [], o, n, b => fun _ => by
    simp [buildDiffLines, oldNums, newNums]
  | l :: ls, o, n, b => fun hv => by
    simp only [validDiff] at hv
    simp only [buildDiffLines]
    split at hv
    · rename_i h heq
      simp only [Bool.and_eq_true, decide_eq_true_eq] at hv
      obtain ⟨⟨h1, h2⟩, hv'⟩ := hv
      obtain ⟨b1, p1, b2, p2⟩ := build_mono ls h.oldStart h.newStart true hv'
      exact ⟨fun x hx => Nat.le_trans h1 (b1 x hx), p1,
        fun x hx => Nat.le_trans h2 (b2 x hx), p2⟩
    · cases b with
      | false =>
        simp only [Bool.false_eq_true, if_false] at hv ⊢
        exact build_mono ls o n false hv
      | true =>
        simp only [if_true] at hv ⊢
        cases hA : isAdditionLine l with
        | true =>
          rw [hA] at hv
          simp only [if_true] at hv ⊢
          obtain ⟨b1, p1, b2, p2⟩ := build_mono ls o (n + 1) true hv
          simp only [oldNums, newNums, List.filterMap_cons]
          refine ⟨fun x hx => b1 x hx, p1, ?_, ?_⟩
          · intro x hx
            rcases List.mem_cons.mp hx with heq' | hx'
            · exact Nat.le_of_eq heq'.symm
            · exact Nat.le_trans (Nat.le_succ n) (b2 x hx')
          · exact List.pairwise_cons.mpr
              ⟨fun y hy => Nat.le_trans (Nat.le_succ n) (b2 y hy), p2⟩
        | false =>
          rw [hA] at hv
          simp only [Bool.false_eq_true, if_false] at hv ⊢
          cases hD : isDeletionLine l with
          | true =>
            rw [hD] at hv
            simp only [if_true] at hv ⊢
            obtain ⟨b1, p1, b2, p2⟩ := build_mono ls (o + 1) n true hv
            simp only [oldNums, newNums, List.filterMap_cons]
            refine ⟨?_, ?_, fun x hx => b2 x hx, p2⟩
            · intro x hx
              rcases List.mem_cons.mp hx with heq' | hx'
              · exact Nat.le_of_eq heq'.symm
              · exact Nat.le_trans (Nat.le_succ o) (b1 x hx')
            · exact List.pairwise_cons.mpr
                ⟨fun y hy => Nat.le_trans (Nat.le_succ o) (b1 y hy), p1⟩
          | false =>
            rw [hD] at hv
            simp only [Bool.false_eq_true, if_false] at hv ⊢
            obtain ⟨b1, p1, b2, p2⟩ := build_mono ls (o + 1) (n + 1) true hv
            simp only [oldNums, newNums, List.filterMap_cons]
            refine ⟨?_, ?_, ?_, ?_⟩
            · intro x hx
              rcases List.mem_cons.mp hx with heq' | hx'
              · exact Nat.le_of_eq heq'.symm
              · exact Nat.le_trans (Nat.le_succ o) (b1 x hx')
            · exact List.pairwise_cons.mpr
                ⟨fun y hy => Nat.le_trans (Nat.le_succ o) (b1 y hy), p1⟩
            · intro x hx
              rcases List.mem_cons.mp hx with heq' | hx'
              · exact Nat.le_of_eq heq'.symm
              · exact Nat.le_trans (Nat.le_succ n) (b2 x hx')
            · exact List.pairwise_cons.mpr
                ⟨fun y hy => Nat.le_trans (Nat.le_succ n) (b2 y hy), p2⟩

/-- C8: for every patch whose hunk headers appear in ascending position
(formalized by the predicate validDiff along the same traversal as the
parsing loop), the old coordinates present in the flat parsed sequence are
non-decreasing in sequence order, and likewise the new coordinates. -/
theorem claim_C8_coordinate_monotonicity (patch : String)
    (h : validDiff (splitLines patch.data) 0 0 false = true) :
    (oldNums (allDiffLines patch)).Pairwise (· ≤ ·) ∧
      (newNums (allDiffLines patch)).Pairwise (· ≤ ·) := by
  obtain ⟨-, p1, -, p2⟩ := build_mono (splitLines patch.data) 0 0 false h
  exact ⟨p1, p2⟩

/-- Witness for C8 at a concrete input: the two-hunk patch with ascending
headers is valid and its parsed coordinates are monotone. -/
theorem claim_C8_witness :
    validDiff (splitLines multiHunkPatch.data) 0 0 false = true ∧
      (oldNums (allDiffLines multiHunkPatch)).Pairwise (· ≤ ·) ∧
      (newNums (allDiffLines multiHunkPatch)).Pairwise (· ≤ ·) :=
  ⟨by decide, claim_C8_coordinate_monotonicity multiHunkPatch (by decide)⟩

/-! Lemmas about the patch application loops. -/

theorem copyFrom_eq_take (l : List (List Char)) :
    ∀ (count i : Nat), i + count ≤ l.length →
      copyFrom l i count = some ((l.drop i).take count)
  | 0, i => fun _ => by simp [copyFrom]
  | count + 1, i => fun h => by
    have hlt : i < l.length := by omega
    simp only [copyFrom, List.getElem?_eq_getElem hlt]
    rw [copyFrom_eq_take l count (i + 1) (by omega)]
    rw [List.drop_eq_getElem_cons hlt, List.take_succ_cons]
    rfl

theorem copyFrom_drop (l : List (List Char)) (a : Nat) (h : a ≤ l.length) :
    copyFrom l a (l.length - a) = some (l.drop a) := by
  rw [copyFrom_eq_take l (l.length - a) a (by omega)]
  congr 1
  conv_lhs => rw [← List.length_drop a l]
  exact List.take_length _

theorem copyFrom_oob (l : List (List Char)) :
    ∀ (count i : Nat), l.length < i + count → 1 ≤ count → copyFrom l i count = none
  | 0, _ => fun _ h1 => absurd h1 (by omega)
  | count + 1, i => fun h _ => by
    rcases hg : l[i]? with _ | x
    · simp only [copyFrom, hg]
    · rcases List.getElem?_eq_some_iff.mp hg with ⟨hlt, -⟩
      have hc : 1 ≤ count := by omega
      simp only [copyFrom, hg]
      rw [copyFrom_oob l count (i + 1) (by omega) hc]
      rfl

theorem applyBodyLine_eq (l : List Char) :
    applyBodyLine l =
      if (isContextLine l || isAdditionLine l) = true then some (l.drop 1) else none := by
  cases l with
  | nil => rfl
  | cons c r =>
    by_cases h1 : c = '+'
    · subst h1
      rfl
    · by_cases h2 : c = '-'
      · subst h2
        rfl
      · by_cases h3 : c = ' '
        · subst h3
          rfl
        · simp only [applyBodyLine, isContextLine, isAdditionLine,
            if_neg h1, if_neg h2, if_neg h3,
            decide_eq_false h1, decide_eq_false h3]
          rfl

theorem applyBody_eq_filter :
    ∀ ls : List (List Char),
      applyBody ls =
        (ls.filter fun l => isContextLine l || isAdditionLine l).map fun l => l.drop 1
  | [] => rfl
  | l :: ls => by
    simp only [applyBody, applyBodyLine_eq l, List.filter_cons]
    by_cases h : (isContextLine l || isAdditionLine l) = true
    · simp [h, applyBody_eq_filter ls]
    · simp [h, applyBody_eq_filter ls]

/-- C4: under the in-bounds preconditions, applyHunk succeeds and equals
the declarative description from the specification: the base lines before
oldStart, then the marker-stripped context and addition body lines with
deletions skipped, then the base lines from oldStart plus oldLines on. -/
theorem claim_C4_applyHunk_described (B : String) (H : DiffHunk)
    (h1 : 1 ≤ H.oldStart)
    (h2 : H.oldStart - 1 + H.oldLines ≤ (baseLinesOf B).length) :
    applyHunk B H = some (applyHunkDescribed B H) := by
  simp only [applyHunk, applyHunkDescribed]
  rw [copyFrom_eq_take (baseLinesOf B) (H.oldStart - 1) 0 (by omega)]
  simp only [List.drop_zero, Option.some_bind]
  rw [if_neg (by omega : ¬(H.oldStart = 0 ∧ H.oldLines = 0))]
  rw [copyFrom_drop (baseLinesOf B) (H.oldStart - 1 + H.oldLines) h2]
  rw [applyBody_eq_filter]
  rfl

/-- Witness for C4 at a concrete input: a one-line replacement hunk
applied to a three-line base. -/
theorem claim_C4_witness :
    1 ≤ (2 : Nat) ∧
      2 - 1 + 1 ≤ (baseLinesOf "line 1\nold line\nline 3").length ∧
      applyHunk "line 1\nold line\nline 3"
          ⟨2, 1, 2, 1, "@@ -2,1 +2,1 @@\n-old line\n+new line"⟩ =
        some (applyHunkDescribed "line 1\nold line\nline 3"
          ⟨2, 1, 2, 1, "@@ -2,1 +2,1 @@\n-old line\n+new line"⟩) :=
  ⟨by decide, by decide,
    claim_C4_applyHunk_described "line 1\nold line\nline 3"
      ⟨2, 1, 2, 1, "@@ -2,1 +2,1 @@\n-old line\n+new line"⟩ (by decide) (by decide)⟩

/-- C9: applyHunk indexes the base lines without a bounds check, so when
oldStart exceeds the number of base lines plus one, the leading copy reads
past the end of the base array and the embedded result is none; the
function is total (some result) only under the precondition that oldStart
minus 1 is at most the number of base lines. -/
theorem claim_C9_apply_out_of_bounds (B : String) (H : DiffHunk)
    (h : (baseLinesOf B).length + 1 < H.oldStart) :
    applyHunk B H = none := by
  simp only [applyHunk]
  rw [copyFrom_oob (baseLinesOf B) (H.oldStart - 1) 0 (by omega) (by omega)]
  rfl

/-- Witness for C9 at a concrete input: a hunk with oldStart 2 applied to
empty base content. -/
theorem claim_C9_witness :
    (baseLinesOf "").length + 1 < 2 ∧
      applyHunk "" ⟨2, 0, 2, 1, "@@ -2,0 +2,1 @@\n+x"⟩ = none :=
  ⟨by decide,
    claim_C9_apply_out_of_bounds "" ⟨2, 0, 2, 1, "@@ -2,0 +2,1 @@\n+x"⟩ (by decide)⟩

/-- C1: evaluation of the code at the failing input of its own regression
test.  Extracting new line 3 from the spliced-insertion patch yields a
hunk whose oldStart is 1, produced by the or-with-1 fallback of the
synthesizer, whereas the specification and the repository test require
oldStart 3 carried forward from the surrounding context. -/
theorem claim_C1_oldStart_fallback_at_bug_input :
    extractHunkForLineRange buggyPatch 3 3 =
      some ⟨1, 0, 3, 1, "@@ -1,0 +3,1 @@\n+export const baz = 3;"⟩ := by
  decide

/-- C3: extracting the single new line 4 from the five-line new-file patch
yields newStart 4, newLines 1, and a body holding exactly the fourth
addition line. -/
theorem claim_C3_newfile_single_line :
    extractHunkForLineRange newFilePatch 4 4 =
      some ⟨1, 0, 4, 1, "@@ -1,0 +4,1 @@\n+export const qux = 4;"⟩ := by
  decide

/-- C5: sequentially applying the two pure-insertion hunks with oldStart 3
and 4 to the two-line base appends both lines exactly once. -/
theorem claim_C5_sequential_insertions :
    applyHunksSequentially "export const foo = 1;\nexport const bar = 2;"
      [⟨3, 0, 3, 1, "@@ -3,0 +3,1 @@\n+export const baz = 3;"⟩,
       ⟨4, 0, 4, 1, "@@ -4,0 +4,1 @@\n+export const qux = 4;"⟩] =
      some "export const foo = 1;\nexport const bar = 2;\nexport const baz = 3;\nexport const qux = 4;" := by
  decide

end Splice
